import Mathlib

/-!
# Arboric request-authorization pipeline: a shallow embedding

This file embeds the core of the arboric GraphQL proxy in Lean 4 and proves
properties of the ABAC policy evaluator, the GraphQL pattern matcher, the
telemetry path and the request pipeline ordering.

Conventions:
* Rust functions that can panic are embedded as `Option`-valued functions,
  `none` standing for a panic (`unwrap` on `None`/`Err`).
* Rust iterator combinators (`all`, `any`, `filter ... any`) are embedded as
  short-circuiting recursions, so that a panic hidden behind a short-circuit
  is not evaluated, exactly as in the lazy Rust iterators.
* The `regex` crate is embedded as a small regular-expression engine
  (`Rx`, `compile`, `rmatch`): `Regex::new` is `compile` (returning `none`
  on a malformed pattern, which the source then `unwrap`s into a panic) and
  `Regex::is_match` is an unanchored containment match (`within`).
-/

namespace Arboric

/-! ## JSON values and claims (serde_json::Value, serde_json::Map) -/

/-- A JSON value, mirroring `serde_json::Value` (numbers simplified to `Int`,
which is irrelevant to the embedded code: only string-ness is inspected). -/
inductive Json where
  | null
  | bool (b : Bool)
  | num (n : Int)
  | str (s : String)
  | arr (elems : List Json)
  | obj (fields : List (String × Json))

/-- `Value::as_str`: `some` exactly on JSON strings. -/
def Json.asStr : Json → Option String
  | .str s => some s
  | _ => none

/-- serde_json's `String == Value` comparison: true iff the value is a JSON
string equal to the given string. -/
def Json.eqString (v : String) : Json → Bool
  | .str s => v = s
  | _ => false

/-- The claim set: a key-unique map from claim name to JSON value
(`serde_json::Map<String, Value>`), embedded as an association list. -/
abbrev Claims := List (String × Json)

/-- `Map::contains_key`. -/
def containsKey (claims : Claims) (k : String) : Bool :=
  claims.any (fun p => p.1 = k)

/-- `Map::get`. -/
def getClaim (claims : Claims) (k : String) : Option Json :=
  (claims.find? (fun p => p.1 = k)).map (fun p => p.2)

/-! ## GraphQL AST (graphql_parser::query), restricted to what the code reads -/

/-- A selection inside a selection set. Only the field name is ever read by
the embedded code, so payloads of the other variants are dropped. -/
inductive Selection where
  | field (name : String)
  | fragmentSpread
  | inlineFragment

/-- `graphql_parser::query::OperationDefinition`. -/
inductive OperationDefinition where
  | selectionSet (items : List Selection)
  | query (name : Option String) (items : List Selection)
  | mutation (name : Option String) (items : List Selection)
  | subscription (name : Option String) (items : List Selection)

/-- `graphql_parser::query::Definition`. -/
inductive Definition where
  | operation (op : OperationDefinition)
  | fragment

/-- `graphql_parser::query::Document`. -/
structure Document where
  definitions : List Definition

/-- The `arboric::Request`: validated claims plus the parsed document. -/
structure Request where
  claims : Claims
  document : Document

/-! ## A regular-expression engine, embedding the `regex` crate

`FieldPattern::matches` does `Regex::new(&s.replace("*", ".*")).unwrap()
.is_match(name)`.  We embed the fragment of the regex language those inputs
can reach: literal characters, `.`, postfix `*`/`+`/`?`, grouping and `|`.
Characters outside this fragment make `compile` fail, as `Regex::new` fails
on genuinely malformed inputs such as an unbalanced `(`. -/

/-- Regular expressions: failure, empty word, a literal character, any
character (`.`), alternation, concatenation and Kleene star. -/
inductive Rx where
  | fail
  | eps
  | chr (c : Char)
  | dot
  | alt (a b : Rx)
  | cat (a b : Rx)
  | star (a : Rx)
deriving DecidableEq

/-- Does the regular expression accept the empty word? -/
def Rx.nullable : Rx → Bool
  | .fail => false
  | .eps => true
  | .chr _ => false
  | .dot => false
  | .alt a b => a.nullable || b.nullable
  | .cat a b => a.nullable && b.nullable
  | .star _ => true

/-- Brzozowski derivative of a regular expression by one character. -/
def Rx.deriv : Rx → Char → Rx
  | .fail, _ => .fail
  | .eps, _ => .fail
  | .chr d, c => if c = d then .eps else .fail
  | .dot, _ => .eps
  | .alt a b, c => .alt (a.deriv c) (b.deriv c)
  | .cat a b, c =>
    if a.nullable then .alt (.cat (a.deriv c) b) (b.deriv c)
    else .cat (a.deriv c) b
  | .star a, c => .cat (a.deriv c) (.star a)

/-- The derivative-based matcher: whole-word acceptance. -/
def rmatch : Rx → List Char → Bool
  | r, [] => r.nullable
  | r, c :: s => rmatch (r.deriv c) s

/-- The language of a regular expression, as an inductive predicate. -/
inductive RMatch : Rx → List Char → Prop where
  | eps : RMatch .eps []
  | chr (c : Char) : RMatch (.chr c) [c]
  | dot (c : Char) : RMatch .dot [c]
  | altL {a b : Rx} {s : List Char} : RMatch a s → RMatch (.alt a b) s
  | altR {a b : Rx} {s : List Char} : RMatch b s → RMatch (.alt a b) s
  | cat {a b : Rx} {s t : List Char} :
      RMatch a s → RMatch b t → RMatch (.cat a b) (s ++ t)
  | starNil {a : Rx} : RMatch (.star a) []
  | starCons {a : Rx} {s t : List Char} :
      RMatch a s → RMatch (.star a) t → RMatch (.star a) (s ++ t)

/-- Characters the embedded regex parser treats as literals.  The excluded
characters are the regex metacharacters; an input using one outside the
supported fragment does not compile (conservatively matching `Regex::new`,
which rejects genuinely malformed inputs such as an unbalanced `(`). -/
def isRegexLiteral (c : Char) : Bool :=
  !(c ∈ ['(', ')', '|', '*', '+', '?', '.', '[', ']', '\\', '^', '$',
         Char.ofNat 123, Char.ofNat 125])

/-- A single optional postfix repetition operator after an atom. -/
def applySuffix (r : Rx) (cs : List Char) : Rx × List Char :=
  match cs with
  | [] => (r, cs)
  | c :: rest =>
    if c = '*' then (.star r, rest)
    else if c = '+' then (.cat r (.star r), rest)
    else if c = '?' then (.alt .eps r, rest)
    else (r, cs)

mutual

/-- Parse one atom: a group, `.`, or a literal character. -/
def parseAtom : Nat → List Char → Option (Rx × List Char)
  | 0, _ => none
  | _ + 1, [] => none
  | fuel + 1, c :: rest =>
    if c = '(' then
      match parseAlt fuel rest with
      | some (r, ')' :: rest2) => some (r, rest2)
      | _ => none
    else if c = '.' then some (.dot, rest)
    else if isRegexLiteral c then some (.chr c, rest)
    else none

/-- Parse a (possibly empty) sequence of postfixed atoms. -/
def parseSeq : Nat → List Char → Option (Rx × List Char)
  | 0, _ => none
  | fuel + 1, cs =>
    match parseAtom fuel cs with
    | none => some (.eps, cs)
    | some (a, rest) =>
      match applySuffix a rest with
      | (a2, rest2) =>
        match parseSeq fuel rest2 with
        | some (b, rest3) => some (.cat a2 b, rest3)
        | none => none

/-- Parse an alternation of sequences. -/
def parseAlt : Nat → List Char → Option (Rx × List Char)
  | 0, _ => none
  | fuel + 1, cs =>
    match parseSeq fuel cs with
    | some (a, '|' :: rest) =>
      match parseAlt fuel rest with
      | some (b, rest2) => some (.alt a b, rest2)
      | none => none
    | some (a, rest) => some (a, rest)
    | none => none

end

/-- `Regex::new`: compile a regex text, `none` when it is malformed
(the caller's `unwrap` then panics). -/
def compile (cs : List Char) : Option Rx :=
  match parseAlt (4 * cs.length + 4) cs with
  | some (r, []) => some r
  | _ => none

/-- The containment regex: `is_match` searches anywhere in the haystack, so
it accepts a word iff some contiguous slice of it is accepted by `r`. -/
def within (r : Rx) : Rx :=
  .cat (.star .dot) (.cat r (.star .dot))

/-- `Regex::is_match`: unanchored search. -/
def isMatch (r : Rx) (s : List Char) : Bool :=
  rmatch (within r) s

/-- The regex made of the literal characters of a word, concatenated. -/
def lit : List Char → Rx
  | [] => .eps
  | c :: rest => .cat (.chr c) (lit rest)

/-! ## arboric::graphql — FieldPattern and Pattern -/

/-- `str::replace("*", ".*")` on the character list. -/
def globReplace : List Char → List Char
  | [] => []
  | c :: rest =>
    if c = '*' then '.' :: '*' :: globReplace rest else c :: globReplace rest

/-- `arboric::graphql::FieldPattern`: a glob over field names. -/
structure FieldPattern where
  pat : String
deriving DecidableEq

/-- `FieldPattern::matches`: recompile the glob as a regex on every call and
`unwrap` (`none` = panic), then search the field name unanchored.  This is
`Regex::new(&s.replace("*", ".*")).unwrap().is_match(name)`. -/
def FieldPattern.matchesE (fp : FieldPattern) (name : String) : Option Bool :=
  match compile (globReplace fp.pat.toList) with
  | some r => some (isMatch r name.toList)
  | none => none

/-- `arboric::graphql::Pattern`. -/
inductive Pattern where
  | any
  | query (fp : FieldPattern)
  | mutation (fp : FieldPattern)
deriving DecidableEq

/-- `Pattern::parse`: total on all strings; `*` is `Any`, a `mutation:` or
`query:` prefix selects the variant, anything else is a bare query glob. -/
def Pattern.parse (s : String) : Pattern :=
  if s = "*" then .any
  else if s.startsWith "mutation:" then .mutation ⟨s.drop 9⟩
  else if s.startsWith "query:" then .query ⟨s.drop 6⟩
  else .query ⟨s⟩

/-- Rust's `Iterator::any` over selections, applying the field pattern to
`Field` selections and `false` to the rest; short-circuits on the first
`true`, and propagates a panic (`none`) of the pattern matcher. -/
def anyFieldE (fp : FieldPattern) : List Selection → Option Bool
  | [] => some false
  | .field name :: rest =>
    match fp.matchesE name with
    | none => none
    | some true => some true
    | some false => anyFieldE fp rest
  | _ :: rest => anyFieldE fp rest

/-- `Pattern::matches` over an operation definition (`none` = panic). -/
def Pattern.matchesE : Pattern → OperationDefinition → Option Bool
  | .any, _ => some true
  | .query fp, .query _ items => anyFieldE fp items
  | .query fp, .selectionSet items => anyFieldE fp items
  | .query _, _ => some false
  | .mutation fp, .mutation _ items => anyFieldE fp items
  | .mutation _, _ => some false

/-! ## arboric::abac — MatchAttribute, Rule, Policy, PDP -/

/-- `abac::MatchAttribute`. -/
inductive MatchAttribute where
  | any
  | claimPresent (claim : String)
  | claimEquals (claim : String) (value : String)
  | claimIncludes (claim : String) (element : String)

/-- `MatchAttribute::matches` (`RequestMatcher for MatchAttribute`).
`ClaimIncludes` calls `v.as_str().unwrap()`, so a present non-string claim
value panics (`none`); both other failure shapes return `false`. -/
def MatchAttribute.matchesE (ma : MatchAttribute) (req : Request) : Option Bool :=
  match ma with
  | .claimPresent claim => some (containsKey req.claims claim)
  | .claimEquals claim value =>
    some (containsKey req.claims claim &&
      (match getClaim req.claims claim with
       | some v => Json.eqString value v
       | none => false))
  | .claimIncludes claim element =>
    if containsKey req.claims claim then
      match getClaim req.claims claim with
      | some v =>
        match v.asStr with
        | some s => some ((s.splitOn ",").contains element)
        | none => none
      | none => some false
    else some false
  | .any => some true

/-- `abac::Rule`. -/
inductive Rule where
  | allow (pattern : Pattern)
  | deny (pattern : Pattern)

/-- `Rule::matches`: delegate to the inner pattern regardless of variant. -/
def Rule.matchesE : Rule → OperationDefinition → Option Bool
  | .allow p, od => p.matchesE od
  | .deny p, od => p.matchesE od

/-- `Rule::allows`: the three-valued decision — `some true` for a matching
`Allow`, `some false` for a matching `Deny`, `none` (inner) when the pattern
does not match; outer `none` = panic inside pattern matching. -/
def Rule.allowsE : Rule → OperationDefinition → Option (Option Bool)
  | .allow p, od =>
    match p.matchesE od with
    | none => none
    | some true => some (some true)
    | some false => some none
  | .deny p, od =>
    match p.matchesE od with
    | none => none
    | some true => some (some false)
    | some false => some none

/-- The closure body of `Policy::allows`'s inner `rules.iter().all(...)`:
a matching rule contributes its `allows` opinion defaulted to `true`,
a non-matching rule contributes `true`. -/
def ruleClosure (rule : Rule) (od : OperationDefinition) : Option Bool :=
  match rule.matchesE od with
  | none => none
  | some true =>
    match rule.allowsE od with
    | none => none
    | some (some b) => some b
    | some none => some true
  | some false => some true

/-- Rust's short-circuiting `Iterator::all` with a panicking body
(`none` = panic; `some false` stops the iteration). -/
def allE {α : Type} (f : α → Option Bool) : List α → Option Bool
  | [] => some true
  | a :: rest =>
    match f a with
    | none => none
    | some false => some false
    | some true => allE f rest

/-- The per-operation conjunction over the policy's rules. -/
def opAllowed (rules : List Rule) (od : OperationDefinition) : Option Bool :=
  allE (fun rule => ruleClosure rule od) rules

/-- The per-definition result inside `Policy::allows`: operations fold their
rules, any other definition yields `false`. -/
def defAllowed (rules : List Rule) : Definition → Option Bool
  | .operation od => opAllowed rules od
  | .fragment => some false

/-- `abac::Policy`. -/
structure Policy where
  attributes : List MatchAttribute
  rules : List Rule

/-- `RequestMatcher for Policy`: all attributes match the claims. -/
def Policy.matchesE (p : Policy) (req : Request) : Option Bool :=
  allE (fun ma => ma.matchesE req) p.attributes

/-- `Policy::allows`: when every attribute matches, AND the per-definition
results over the whole document; otherwise `false`. -/
def Policy.allowsE (p : Policy) (req : Request) : Option Bool :=
  match allE (fun ma => ma.matchesE req) p.attributes with
  | none => none
  | some true => allE (defAllowed p.rules) req.document.definitions
  | some false => some false

/-- `abac::PDP`. -/
structure PDP where
  policies : List Policy

/-- `policies.iter().filter(|p| p.matches(r)).any(|p| p.allows(r))`,
with lazy evaluation and panic propagation. -/
def pdpFilterAny : List Policy → Request → Option Bool
  | [], _ => some false
  | p :: rest, req =>
    match p.matchesE req with
    | none => none
    | some false => pdpFilterAny rest req
    | some true =>
      match p.allowsE req with
      | none => none
      | some true => some true
      | some false => pdpFilterAny rest req

/-- `PDP::allows`: an empty policy list denies outright; otherwise any
applicable policy that allows decides. -/
def PDP.allowsE (pdp : PDP) (req : Request) : Option Bool :=
  if pdp.policies.isEmpty then some false
  else pdpFilterAny pdp.policies req

/-! ## Top-level field counting (arboric::count_top_level_fields) -/

/-- `HashMap::entry(name).or_insert(0) += 1`, on an association list. -/
def bumpCount : List (String × Nat) → String → List (String × Nat)
  | [], name => [(name, 1)]
  | (k, n) :: rest, name =>
    if k = name then (k, n + 1) :: rest else (k, n) :: bumpCount rest name

/-- `arboric::update_results`: count each `Field` selection's name; other
selection kinds are skipped. -/
def update_results (results : List (String × Nat)) : List Selection → List (String × Nat)
  | [] => results
  | .field name :: rest => update_results (bumpCount results name) rest
  | _ :: rest => update_results results rest

/-- The per-definition step of `count_top_level_fields`: only `Query` and
bare `SelectionSet` operations feed the counter; every other definition
falls into the `_ => warn!` arm and contributes nothing. -/
def countStep (results : List (String × Nat)) (d : Definition) : List (String × Nat) :=
  match d with
  | .operation (.query _ items) => update_results results items
  | .operation (.selectionSet items) => update_results results items
  | _ => results

/-- `arboric::count_top_level_fields`, applied to an already-parsed
document. -/
def count_top_level_fields (doc : Document) : List (String × Nat) :=
  doc.definitions.foldl countStep []

/-- Look a field's count up in the result map (absent = 0). -/
def getCount (m : List (String × Nat)) (name : String) : Nat :=
  ((m.find? (fun p => p.1 = name)).map (fun p => p.2)).getD 0

/-- Occurrences of a field name among the top-level selections of one
selection-set. -/
def countFieldOcc (items : List Selection) (name : String) : Nat :=
  items.countP (fun s =>
    match s with
    | .field n => n = name
    | _ => false)

/-- One definition's declarative contribution to the count of `f`. -/
def defContrib (f : String) (d : Definition) : Nat :=
  match d with
  | .operation (.query _ items) => countFieldOcc items f
  | .operation (.selectionSet items) => countFieldOcc items f
  | _ => 0

/-- The count the code actually produces, stated declaratively: occurrences
summed over `Query` and bare `SelectionSet` operations only. -/
def specCount (doc : Document) (name : String) : Nat :=
  (doc.definitions.map (defContrib name)).sum

/-! ## Telemetry backend (arboric::influxdb::Backend) -/

/-- One telemetry point: measurement `queries`, tag `field`, integer `n`. -/
structure InfluxPoint where
  measurement : String
  fieldTag : String
  n : Int

/-- The points `Backend::write_points` builds from the counts map. -/
def mkPoints (map : List (String × Nat)) : List InfluxPoint :=
  map.map (fun p => ⟨"queries", p.1, Int.ofNat p.2⟩)

/-- `Backend::write_points`: build the points and hand them to the
time-series client, then `unwrap` the client's `Result` — so a client
failure is a panic (`none`), not a swallowed error.  The external
`influx_db_client::Client` is abstracted as the `clientWrite` argument. -/
def Backend.write_points (clientWrite : List InfluxPoint → Except String Unit)
    (map : List (String × Nat)) : Option Unit :=
  match clientWrite (mkPoints map) with
  | .ok _ => some ()
  | .error _ => none

/-! ## The POST pipeline (ProxyService::do_post), as an event trace

`parse_post` and `log_counts` are called by `do_post` but their definitions
are not among the sources; the parse outcome is therefore a parameter
(`parsed`, `none` = parse failure ⇒ 400), and `log_counts` is recorded as
the `telemetryEmit` event. -/

/-- Observable events of one `do_post` execution, in order. -/
inductive PostEvent where
  | bodyParsed
  | telemetryEmit
  | authorize (decision : Option Bool)
  | forwardUpstream
  | respond (status : Nat)
  | panicked
deriving DecidableEq

/-- The event trace of `ProxyService::do_post` (src/arboric/proxy_service.rs
lines 83–144): check the key/claims guard, drain and parse the body, emit
telemetry when a backend is configured, only then consult the PDP, and
finally forward or reject. -/
def doPostEvents (hasKey : Bool) (claims : Option Claims) (hasBackend : Bool)
    (pdp : PDP) (parsed : Option (Document × List (String × Nat))) : List PostEvent :=
  if hasKey && claims.isNone then [.respond 401]
  else
    match parsed with
    | none => [.respond 400]
    | some (document, _counts) =>
      let telemetry : List PostEvent := if hasBackend then [.telemetryEmit] else []
      if hasKey then
        match claims with
        | some cs =>
          .bodyParsed :: telemetry ++
            (match PDP.allowsE pdp ⟨cs, document⟩ with
             | none => [.panicked]
             | some false => [.authorize (some false), .respond 401]
             | some true => [.authorize (some true), .forwardUpstream])
        | none => [.panicked]
      else .bodyParsed :: telemetry ++ [.forwardUpstream]

/-! ## Concrete fixtures used by witnesses and counterexamples -/

/-- A policy with no attributes and no rules (`Policy::new()`). -/
def emptyPolicy : Policy := ⟨[], []⟩

/-- The document `{hero{...}}`: one anonymous operation, one field. -/
def docHero : Document := ⟨[.operation (.selectionSet [.field "hero"])]⟩

/-- A request with an empty claim set and the `{hero{...}}` document. -/
def reqHero : Request := ⟨[], docHero⟩

/-- The document `mutation {createHero(...){ ... }}`. -/
def docMutHero : Document := ⟨[.operation (.mutation none [.field "createHero"])]⟩

/-- A policy with both `Allow(query:*)` and `Deny(query:*)`. -/
def allowDenyPolicy : Policy :=
  ⟨[], [.allow (.query ⟨"*"⟩), .deny (.query ⟨"*"⟩)]⟩

/-- `Rule::Deny(Pattern::query("a"))`. -/
def ruleDenyA : Rule := .deny (.query ⟨"a"⟩)

/-- `Rule::Allow(Pattern::query("("))`: its glob does not compile as a
regex, so evaluating it against any field panics. -/
def ruleAllowParen : Rule := .allow (.query ⟨"("⟩)

/-- `Rule::Allow(Pattern::query("b"))`. -/
def ruleAllowB : Rule := .allow (.query ⟨"b"⟩)

/-- The document `{a}` and the corresponding claimless request. -/
def docA : Document := ⟨[.operation (.selectionSet [.field "a"])]⟩

/-- Claimless request carrying `{a}`. -/
def reqA : Request := ⟨[], docA⟩

/-- A request whose `roles` claim is the JSON number `42`, not a string. -/
def reqNumRoles : Request := ⟨[("roles", .num 42)], ⟨[]⟩⟩

/-! ## Regular-expression engine: correctness of the derivative matcher -/

theorem fail_inv {u : List Char} (h : RMatch .fail u) : False := by
  cases h

theorem eps_inv {u : List Char} (h : RMatch .eps u) : u = [] := by
  cases h; rfl

theorem chr_inv {d : Char} {u : List Char} (h : RMatch (.chr d) u) : u = [d] := by
  cases h; rfl

theorem dot_inv {u : List Char} (h : RMatch .dot u) : ∃ c, u = [c] := by
  cases h with
  | dot c => exact ⟨c, rfl⟩

theorem alt_inv {a b : Rx} {u : List Char} (h : RMatch (.alt a b) u) :
    RMatch a u ∨ RMatch b u := by
  cases h with
  | altL h => exact Or.inl h
  | altR h => exact Or.inr h

theorem cat_inv {a b : Rx} {u : List Char} (h : RMatch (.cat a b) u) :
    ∃ s t, u = s ++ t ∧ RMatch a s ∧ RMatch b t := by
  cases h with
  | cat h1 h2 => exact ⟨_, _, rfl, h1, h2⟩

/-- A nonempty word matching `star a` splits off a nonempty word of `a`. -/
theorem star_decomp_aux {r : Rx} {u : List Char} (h : RMatch r u) :
    ∀ a, r = .star a →
      u = [] ∨ ∃ s t, s ≠ [] ∧ u = s ++ t ∧ RMatch a s ∧ RMatch (.star a) t := by
  induction h with
  | eps => intro a hr; exact Rx.noConfusion hr
  | chr c => intro a hr; exact Rx.noConfusion hr
  | dot c => intro a hr; exact Rx.noConfusion hr
  | altL h ih => intro a hr; exact Rx.noConfusion hr
  | altR h ih => intro a hr; exact Rx.noConfusion hr
  | cat h1 h2 ih1 ih2 => intro a hr; exact Rx.noConfusion hr
  | starNil => intro a hr; exact Or.inl rfl
  | starCons h1 h2 ih1 ih2 =>
    intro a0 hr
    rename_i a1 s t
    have ha : a1 = a0 := by injection hr
    subst ha
    by_cases hs : s = []
    · subst hs
      rcases ih2 _ rfl with ht | ⟨s2, t2, hne, heq, hm1, hm2⟩
      · exact Or.inl (by simp [ht])
      · exact Or.inr ⟨s2, t2, hne, by simp [heq], hm1, hm2⟩
    · exact Or.inr ⟨s, t, hs, rfl, h1, h2⟩

theorem star_decomp {a : Rx} {u : List Char} (h : RMatch (.star a) u) :
    u = [] ∨ ∃ s t, s ≠ [] ∧ u = s ++ t ∧ RMatch a s ∧ RMatch (.star a) t :=
  star_decomp_aux h a rfl

theorem nullable_iff {r : Rx} : r.nullable = true ↔ RMatch r [] := by
  induction r with
  | fail =>
    simp only [Rx.nullable, Bool.false_eq_true, false_iff]
    exact fail_inv
  | eps =>
    simp only [Rx.nullable, true_iff]
    exact .eps
  | chr c =>
    simp only [Rx.nullable, Bool.false_eq_true, false_iff]
    intro h
    exact List.noConfusion (chr_inv h)
  | dot =>
    simp only [Rx.nullable, Bool.false_eq_true, false_iff]
    intro h
    rcases dot_inv h with ⟨c, hc⟩
    exact List.noConfusion hc
  | alt a b iha ihb =>
    simp only [Rx.nullable, Bool.or_eq_true, iha, ihb]
    constructor
    · rintro (h | h)
      · exact .altL h
      · exact .altR h
    · intro h
      rcases alt_inv h with h | h
      · exact Or.inl h
      · exact Or.inr h
  | cat a b iha ihb =>
    simp only [Rx.nullable, Bool.and_eq_true, iha, ihb]
    constructor
    · rintro ⟨h1, h2⟩
      exact (RMatch.cat h1 h2 : RMatch _ ([] ++ []))
    · intro h
      rcases cat_inv h with ⟨s, t, hst, h1, h2⟩
      rcases List.append_eq_nil.mp hst.symm with ⟨rfl, rfl⟩
      exact ⟨h1, h2⟩
  | star a ih =>
    simp only [Rx.nullable, true_iff]
    exact .starNil

theorem rmatch_deriv_complete {r : Rx} {c : Char} {s : List Char}
    (h : RMatch r (c :: s)) : RMatch (r.deriv c) s := by
  induction r generalizing s with
  | fail => exact (fail_inv h).elim
  | eps => exact List.noConfusion (eps_inv h)
  | chr d =>
    have hc := chr_inv h
    injection hc with h1e h2e
    subst h1e
    subst h2e
    simp only [Rx.deriv, if_pos rfl]
    exact .eps
  | dot =>
    rcases dot_inv h with ⟨d, hd⟩
    injection hd with h1e h2e
    subst h2e
    simp only [Rx.deriv]
    exact .eps
  | alt a b iha ihb =>
    simp only [Rx.deriv]
    rcases alt_inv h with h | h
    · exact .altL (iha h)
    · exact .altR (ihb h)
  | cat a b iha ihb =>
    rcases cat_inv h with ⟨u, v, huv, h1, h2⟩
    cases u with
    | nil =>
      have hv : v = c :: s := by simpa using huv.symm
      subst hv
      have hn : a.nullable = true := nullable_iff.mpr h1
      simp only [Rx.deriv, if_pos hn]
      exact .altR (ihb h2)
    | cons c2 u2 =>
      rw [List.cons_append] at huv
      injection huv with h1e h2e
      subst h1e
      subst h2e
      have hd := iha h1
      have hcat : RMatch (.cat (a.deriv c) b) (u2 ++ v) := .cat hd h2
      by_cases hn : a.nullable = true
      · simp only [Rx.deriv, if_pos hn]
        exact .altL hcat
      · simp only [Rx.deriv, if_neg hn]
        exact hcat
  | star a ih =>
    rcases star_decomp h with heq | ⟨u, v, hne, huv, h1, h2⟩
    · exact List.noConfusion heq
    · cases u with
      | nil => exact absurd rfl hne
      | cons c2 u2 =>
        rw [List.cons_append] at huv
        injection huv with h1e h2e
        subst h1e
        subst h2e
        simp only [Rx.deriv]
        exact .cat (ih h1) h2

theorem rmatch_deriv_sound {r : Rx} {c : Char} {s : List Char}
    (h : RMatch (r.deriv c) s) : RMatch r (c :: s) := by
  induction r generalizing s with
  | fail => exact (fail_inv h).elim
  | eps => exact (fail_inv h).elim
  | chr d =>
    by_cases hc : c = d
    · subst hc
      rw [Rx.deriv, if_pos rfl] at h
      rw [eps_inv h]
      exact .chr c
    · rw [Rx.deriv, if_neg hc] at h
      exact (fail_inv h).elim
  | dot =>
    rw [Rx.deriv] at h
    rw [eps_inv h]
    exact .dot c
  | alt a b iha ihb =>
    rw [Rx.deriv] at h
    rcases alt_inv h with h | h
    · exact .altL (iha h)
    · exact .altR (ihb h)
  | cat a b iha ihb =>
    by_cases hn : a.nullable = true
    · rw [Rx.deriv, if_pos hn] at h
      rcases alt_inv h with h | h
      · rcases cat_inv h with ⟨u, v, rfl, h1, h2⟩
        exact (RMatch.cat (iha h1) h2 : RMatch _ ((c :: u) ++ v))
      · have h0 : RMatch a [] := nullable_iff.mp hn
        exact (RMatch.cat h0 (ihb h) : RMatch _ ([] ++ (c :: s)))
    · rw [Rx.deriv, if_neg hn] at h
      rcases cat_inv h with ⟨u, v, rfl, h1, h2⟩
      exact (RMatch.cat (iha h1) h2 : RMatch _ ((c :: u) ++ v))
  | star a ih =>
    rw [Rx.deriv] at h
    rcases cat_inv h with ⟨u, v, rfl, h1, h2⟩
    exact (RMatch.starCons (ih h1) h2 : RMatch _ ((c :: u) ++ v))

theorem rmatch_iff {r : Rx} {s : List Char} : rmatch r s = true ↔ RMatch r s := by
  induction s generalizing r with
  | nil => exact nullable_iff
  | cons c s ih =>
    rw [rmatch]
    exact ih.trans ⟨rmatch_deriv_sound, rmatch_deriv_complete⟩

theorem lit_iff {l s : List Char} : RMatch (lit l) s ↔ s = l := by
  induction l generalizing s with
  | nil =>
    constructor
    · exact eps_inv
    · rintro rfl; exact .eps
  | cons c l ih =>
    constructor
    · intro h
      rcases cat_inv h with ⟨u, v, rfl, hu, hv⟩
      rw [chr_inv hu, ih.mp hv]
      rfl
    · rintro rfl
      exact (RMatch.cat (.chr c) (ih.mpr rfl) : RMatch _ ([c] ++ l))

theorem dotStar_all (s : List Char) : RMatch (.star .dot) s := by
  induction s with
  | nil => exact .starNil
  | cons c s ih => exact (RMatch.starCons (.dot c) ih : RMatch _ ([c] ++ s))

theorem within_iff {r : Rx} {s : List Char} :
    RMatch (within r) s ↔ ∃ u v w, s = u ++ v ++ w ∧ RMatch r v := by
  constructor
  · intro h
    rcases cat_inv h with ⟨u, rest, rfl, _, hrest⟩
    rcases cat_inv hrest with ⟨v, w, rfl, hv, _⟩
    exact ⟨u, v, w, (List.append_assoc u v w).symm, hv⟩
  · rintro ⟨u, v, w, rfl, hv⟩
    have : RMatch (within r) (u ++ (v ++ w)) :=
      RMatch.cat (dotStar_all u) (RMatch.cat hv (dotStar_all w))
    simpa [List.append_assoc] using this

/-- `is_match` of a pure-literal regex is exactly infix containment. -/
theorem isMatch_lit_iff {l s : List Char} :
    isMatch (lit l) s = true ↔ l <:+: s := by
  rw [isMatch, rmatch_iff, within_iff]
  constructor
  · rintro ⟨u, v, w, rfl, hv⟩
    rw [lit_iff] at hv
    subst hv
    exact ⟨u, w, rfl⟩
  · rintro ⟨u, w, rfl⟩
    exact ⟨u, l, w, rfl, lit_iff.mpr rfl⟩

/-! ## The compiler on pure-literal inputs -/

theorem parseAtom_nil (fuel : Nat) : parseAtom fuel [] = none := by
  cases fuel <;> rfl

/-- Consequences of a character being a regex literal. -/
theorem isRegexLiteral_spec {c : Char} (h : isRegexLiteral c = true) :
    c ≠ '(' ∧ c ≠ ')' ∧ c ≠ '|' ∧ c ≠ '*' ∧ c ≠ '+' ∧ c ≠ '?' ∧ c ≠ '.' := by
  simp only [isRegexLiteral, List.mem_cons, Bool.not_eq_eq_eq_not, Bool.not_true,
    decide_eq_false_iff_not] at h
  push_neg at h
  exact ⟨h.1, h.2.1, h.2.2.1, h.2.2.2.1, h.2.2.2.2.1, h.2.2.2.2.2.1, h.2.2.2.2.2.2.1⟩

theorem applySuffix_lit (r : Rx) {l : List Char}
    (hl : ∀ c ∈ l, isRegexLiteral c = true) : applySuffix r l = (r, l) := by
  cases l with
  | nil => rfl
  | cons c rest =>
    rcases isRegexLiteral_spec (hl c (by simp)) with ⟨_, _, _, h4, h5, h6, _⟩
    simp only [applySuffix, if_neg h4, if_neg h5, if_neg h6]

theorem parseSeq_lit :
    ∀ (l : List Char) (fuel : Nat), (∀ c ∈ l, isRegexLiteral c = true) →
      l.length + 1 ≤ fuel → parseSeq fuel l = some (lit l, []) := by
  intro l
  induction l with
  | nil =>
    intro fuel _ hf
    match fuel, hf with
    | f + 1, _ => simp [parseSeq, parseAtom_nil, lit]
  | cons c rest ih =>
    intro fuel hl hf
    match fuel, hf with
    | f + 1, hf =>
      have hf2 : rest.length + 1 ≤ f := by
        simpa [Nat.succ_le_succ_iff] using hf
      match f, hf2 with
      | f2 + 1, hf2 =>
        rcases isRegexLiteral_spec (hl c (by simp)) with ⟨h1, _, _, _, _, _, h7⟩
        have hrest : ∀ c2 ∈ rest, isRegexLiteral c2 = true :=
          fun c2 hc2 => hl c2 (by simp [hc2])
        have hatom : parseAtom (f2 + 1) (c :: rest) = some (.chr c, rest) := by
          simp only [parseAtom, if_neg h1, if_neg h7, if_pos (hl c (by simp))]
        rw [parseSeq, hatom]
        have hseq := ih (f2 + 1) hrest (by simpa [Nat.succ_le_succ_iff] using hf2)
        simp only [applySuffix_lit _ hrest, hseq, lit]

theorem parseAlt_lit {l : List Char} {fuel : Nat}
    (hl : ∀ c ∈ l, isRegexLiteral c = true) (hf : l.length + 2 ≤ fuel) :
    parseAlt fuel l = some (lit l, []) := by
  match fuel, hf with
  | f + 1, hf =>
    rw [parseAlt, parseSeq_lit l f hl (by omega)]

/-- Compiling a pure-literal text yields the literal regex. -/
theorem compile_lit {l : List Char} (hl : ∀ c ∈ l, isRegexLiteral c = true) :
    compile l = some (lit l) := by
  rw [compile, parseAlt_lit hl (by omega)]

theorem globReplace_lit {l : List Char} (hl : ∀ c ∈ l, isRegexLiteral c = true) :
    globReplace l = l := by
  induction l with
  | nil => rfl
  | cons c rest ih =>
    rcases isRegexLiteral_spec (hl c (by simp)) with ⟨_, _, _, h4, _⟩
    rw [globReplace, if_neg h4, ih (fun c2 hc2 => hl c2 (by simp [hc2]))]

/-! ## Properties of the short-circuiting `all` fold -/

/-- If the fold returned a value and some element can only ever evaluate to
`false`, the returned value is `false` (whether or not that element was
reached before a short-circuit). -/
theorem allE_mem_false {α : Type} {f : α → Option Bool} {l : List α} {b : Bool}
    (h : allE f l = some b) {a : α} (ha : a ∈ l)
    (hx : ∀ x, f a = some x → x = false) : b = false := by
  induction l with
  | nil => cases ha
  | cons y rest ih =>
    rw [allE] at h
    cases hy : f y with
    | none => rw [hy] at h; exact Option.noConfusion h
    | some v =>
      rw [hy] at h
      cases v with
      | false => cases h; rfl
      | true =>
        rcases List.mem_cons.mp ha with rfl | ha2
        · exact absurd (hx true hy) (by simp)
        · exact ih h ha2

/-- If the fold returned a value and some element's evaluation panics, the
returned value is `false`: the panic must have been short-circuited away by
an earlier `false`. -/
theorem allE_mem_none {α : Type} {f : α → Option Bool} {l : List α} {b : Bool}
    (h : allE f l = some b) {a : α} (ha : a ∈ l) (hn : f a = none) :
    b = false :=
  allE_mem_false h ha (fun x hx => by rw [hn] at hx; exact Option.noConfusion hx)

/-- When every element evaluates to `true`, the fold returns `true`. -/
theorem allE_all_true {α : Type} {f : α → Option Bool} {l : List α}
    (h : ∀ a ∈ l, f a = some true) : allE f l = some true := by
  induction l with
  | nil => rfl
  | cons y rest ih =>
    rw [allE, h y (by simp)]
    exact ih (fun a ha => h a (by simp [ha]))

/-- When no element panics, the fold is the plain conjunction. -/
theorem allE_total {α : Type} {f : α → Option Bool} {l : List α}
    (h : ∀ a ∈ l, f a ≠ none) :
    allE f l = some (decide (∀ a ∈ l, f a = some true)) := by
  induction l with
  | nil => simp [allE]
  | cons y rest ih =>
    rw [allE]
    cases hy : f y with
    | none => exact absurd hy (h y (by simp))
    | some v =>
      cases v with
      | false =>
        have hne : ¬ (∀ a ∈ y :: rest, f a = some true) := by
          intro hall
          have h2 := hall y (by simp)
          rw [hy] at h2
          exact Bool.noConfusion (Option.some.inj h2)
        rw [decide_eq_false hne]
      | true =>
        rw [ih (fun a ha => h a (by simp [ha]))]
        have hiff : (∀ a ∈ y :: rest, f a = some true) ↔ (∀ a ∈ rest, f a = some true) := by
          constructor
          · intro hall a ha; exact hall a (by simp [ha])
          · intro hall a ha
            rcases List.mem_cons.mp ha with rfl | ha2
            · exact hy
            · exact hall a ha2
        rw [decide_eq_decide.mpr hiff]

/-- Two folds that agree pointwise whenever both produce values produce the
same value, provided both runs produced a value. -/
theorem allE_agree {α : Type} {f g : α → Option Bool} {l : List α} {b b' : Bool}
    (hf : allE f l = some b) (hg : allE g l = some b')
    (hpt : ∀ a ∈ l, ∀ x y, f a = some x → g a = some y → x = y) : b = b' := by
  induction l generalizing b b' with
  | nil =>
    cases hf; cases hg; rfl
  | cons z rest ih =>
    rw [allE] at hf hg
    cases hz : f z with
    | none => rw [hz] at hf; exact Option.noConfusion hf
    | some v =>
      rw [hz] at hf
      cases hz2 : g z with
      | none => rw [hz2] at hg; exact Option.noConfusion hg
      | some w =>
        rw [hz2] at hg
        have hvw : v = w := hpt z (by simp) v w hz hz2
        subst hvw
        cases v with
        | false => cases hf; cases hg; rfl
        | true => exact ih hf hg (fun a ha => hpt a (by simp [ha]))

/-- The PDP fold returns `true` exactly when some policy in the list both
matches and allows, provided the fold returned a value at all. -/
theorem pdpFilterAny_spec {ps : List Policy} {req : Request} {b : Bool}
    (h : pdpFilterAny ps req = some b) :
    b = true ↔ ∃ p, p ∈ ps ∧ p.matchesE req = some true ∧ p.allowsE req = some true := by
  induction ps generalizing b with
  | nil =>
    cases h
    simp
  | cons p rest ih =>
    rw [pdpFilterAny] at h
    cases hm : p.matchesE req with
    | none => rw [hm] at h; exact Option.noConfusion h
    | some v =>
      rw [hm] at h
      cases v with
      | false =>
        rw [ih h]
        constructor
        · rintro ⟨q, hq, hq1, hq2⟩; exact ⟨q, by simp [hq], hq1, hq2⟩
        · rintro ⟨q, hq, hq1, hq2⟩
          rcases List.mem_cons.mp hq with rfl | hq3
          · rw [hm] at hq1; exact absurd (Option.some.inj hq1) (by simp)
          · exact ⟨q, hq3, hq1, hq2⟩
      | true =>
        cases ha : p.allowsE req with
        | none => rw [ha] at h; exact Option.noConfusion h
        | some w =>
          rw [ha] at h
          cases w with
          | true =>
            cases h
            simp only [true_iff]
            exact ⟨p, by simp, hm, ha⟩
          | false =>
            rw [ih h]
            constructor
            · rintro ⟨q, hq, hq1, hq2⟩; exact ⟨q, by simp [hq], hq1, hq2⟩
            · rintro ⟨q, hq, hq1, hq2⟩
              rcases List.mem_cons.mp hq with rfl | hq3
              · rw [ha] at hq2; exact absurd (Option.some.inj hq2) (by simp)
              · exact ⟨q, hq3, hq1, hq2⟩

/-! ## Rule-closure lemmas -/

/-- A matching `Deny` rule forces its closure to `false`. -/
theorem ruleClosure_deny {pat : Pattern} {od : OperationDefinition}
    (h : pat.matchesE od = some true) :
    ruleClosure (.deny pat) od = some false := by
  simp [ruleClosure, Rule.matchesE, Rule.allowsE, h]

/-- A non-matching rule's closure is `true` (no opinion). -/
theorem ruleClosure_nomatch {rule : Rule} {od : OperationDefinition}
    (h : rule.matchesE od = some false) :
    ruleClosure rule od = some true := by
  rw [ruleClosure, h]

/-- Per-operation rule folds of two permutations of the same rule list
agree whenever both produce a value. -/
theorem opAllowed_perm_agree {rules rules' : List Rule} {od : OperationDefinition}
    {x y : Bool} (hperm : rules.Perm rules')
    (hx : opAllowed rules od = some x) (hy : opAllowed rules' od = some y) :
    x = y := by
  rw [opAllowed] at hx hy
  by_cases hp : ∀ r ∈ rules, ruleClosure r od ≠ none
  · rw [allE_total hp] at hx
    have hp2 : ∀ r ∈ rules', ruleClosure r od ≠ none :=
      fun r hr => hp r (hperm.mem_iff.mpr hr)
    rw [allE_total hp2] at hy
    injection hx with hx2
    injection hy with hy2
    subst hx2
    subst hy2
    apply decide_eq_decide.mpr
    constructor
    · intro hall r hr; exact hall r (hperm.mem_iff.mpr hr)
    · intro hall r hr; exact hall r (hperm.mem_iff.mp hr)
  · push_neg at hp
    rcases hp with ⟨r, hr, hnone⟩
    rw [allE_mem_none hx hr hnone, allE_mem_none hy (hperm.mem_iff.mp hr) hnone]

/-! ## Field-counting lemmas -/

theorem getCount_cons (k : String) (n : Nat) (rest : List (String × Nat))
    (f : String) :
    getCount ((k, n) :: rest) f = if k = f then n else getCount rest f := by
  by_cases h : k = f
  · simp [getCount, List.find?_cons_of_pos, h]
  · simp [getCount, List.find?_cons_of_neg, h]

theorem getCount_bumpCount (m : List (String × Nat)) (g f : String) :
    getCount (bumpCount m g) f = getCount m f + (if g = f then 1 else 0) := by
  induction m with
  | nil =>
    by_cases h : g = f
    · simp [bumpCount, getCount_cons, getCount, h]
    · simp [bumpCount, getCount_cons, getCount, h]
  | cons p rest ih =>
    obtain ⟨k, n⟩ := p
    by_cases hk : k = g
    · subst hk
      rw [bumpCount, if_pos rfl, getCount_cons, getCount_cons]
      by_cases hf : k = f
      · simp [hf]
      · simp [hf]
    · rw [bumpCount, if_neg hk, getCount_cons, getCount_cons]
      by_cases hf : k = f
      · subst hf
        have hgk : ¬ g = k := fun h => hk h.symm
        simp [hgk]
      · simp [hf, ih]

theorem countFieldOcc_cons (s : Selection) (rest : List Selection) (f : String) :
    countFieldOcc (s :: rest) f =
      countFieldOcc rest f +
        (match s with
         | .field n => if n = f then 1 else 0
         | _ => 0) := by
  cases s <;> simp [countFieldOcc, List.countP_cons]

theorem getCount_update_results (items : List Selection) :
    ∀ (acc : List (String × Nat)) (f : String),
      getCount (update_results acc items) f = getCount acc f + countFieldOcc items f := by
  induction items with
  | nil =>
    intro acc f
    simp [update_results, countFieldOcc]
  | cons s rest ih =>
    intro acc f
    cases s with
    | field n =>
      rw [update_results, ih, getCount_bumpCount, countFieldOcc_cons]
      by_cases h : n = f
      · simp only [if_pos h]
        omega
      · simp only [if_neg h]
        omega
    | fragmentSpread =>
      rw [update_results, ih, countFieldOcc_cons]
      simp
      exact fun name h => Selection.noConfusion h
    | inlineFragment =>
      rw [update_results, ih, countFieldOcc_cons]
      simp
      exact fun name h => Selection.noConfusion h

theorem getCount_countStep (acc : List (String × Nat)) (d : Definition)
    (f : String) :
    getCount (countStep acc d) f = getCount acc f + defContrib f d := by
  cases d with
  | fragment => simp [countStep, defContrib]
  | operation od =>
    cases od with
    | query name items => simp [countStep, defContrib, getCount_update_results]
    | selectionSet items => simp [countStep, defContrib, getCount_update_results]
    | mutation name items => simp [countStep, defContrib]
    | subscription name items => simp [countStep, defContrib]

theorem getCount_foldl (defs : List Definition) :
    ∀ (acc : List (String × Nat)) (f : String),
      getCount (defs.foldl countStep acc) f =
        getCount acc f + (defs.map (defContrib f)).sum := by
  induction defs with
  | nil => intro acc f; simp
  | cons d rest ih =>
    intro acc f
    rw [List.foldl_cons, ih, getCount_countStep]
    simp [Nat.add_assoc]

/-! ## Claims -/

/-- **C1, counterexample.** The claim says a policy with zero rules denies
(`Policy::allows` returns `false`) for any request whose claims satisfy all
of its MatchAttributes.  On the code, the empty rule fold is vacuously true:
`Policy::new()` applied to the request `{hero{...}}` satisfies all (zero)
attributes, yet `allows` returns `true`, not `false`. -/
theorem claim1_counterexample :
    Policy.matchesE emptyPolicy reqHero = some true ∧
    Policy.allowsE emptyPolicy reqHero = some true ∧
    Policy.allowsE emptyPolicy reqHero ≠ some false := by
  decide

/-- **C1 (amended).** A policy with zero rules allows rather than denies:
for every request whose claims satisfy all of the policy's MatchAttributes
and whose document consists solely of operations, `Policy::allows` returns
`true` — the empty rule list constrains nothing. -/
theorem claim1_zero_rule_policy_allows (p : Policy) (req : Request)
    (hrules : p.rules = [])
    (hattrs : p.matchesE req = some true)
    (hops : ∀ d ∈ req.document.definitions, ∃ od, d = .operation od) :
    p.allowsE req = some true := by
  rw [Policy.matchesE] at hattrs
  rw [Policy.allowsE, hattrs]
  show allE (defAllowed p.rules) req.document.definitions = some true
  apply allE_all_true
  intro d hd
  rcases hops d hd with ⟨od, rfl⟩
  rw [hrules]
  rfl

/-- **C1, witness.** The amended statement exercised on `Policy::new()` and
the request `{hero{...}}`. -/
theorem claim1_witness :
    emptyPolicy.rules = [] ∧
    Policy.matchesE emptyPolicy reqHero = some true ∧
    (∀ d ∈ reqHero.document.definitions, ∃ od, d = .operation od) ∧
    Policy.allowsE emptyPolicy reqHero = some true := by
  have hops : ∀ d ∈ reqHero.document.definitions, ∃ od, d = .operation od := by
    intro d hd
    rcases List.mem_singleton.mp hd with rfl
    exact ⟨_, rfl⟩
  exact ⟨rfl, rfl, hops,
    claim1_zero_rule_policy_allows emptyPolicy reqHero rfl rfl hops⟩

/-- **C2, counterexample.** The claim says the compiled glob is anchored at
both ends, so that a star-free pattern matches only its exact text.  The
code builds the regex without anchors and uses `is_match`, a substring
search: `FieldPattern("foo")` matches the name `"xfoo"` although
`"xfoo" ≠ "foo"`. -/
theorem claim2_counterexample :
    FieldPattern.matchesE ⟨"foo"⟩ "xfoo" = some true ∧ "xfoo" ≠ "foo" := by
  decide

/-- **C2 (amended).** `FieldPattern::matches` compiles the glob by replacing
each `*` with `.*` *without* anchoring and tests whether the regex matches
anywhere in the name; hence for every pattern free of `*` and of regex
metacharacters, the pattern matches a name iff its text occurs as a
contiguous substring (infix) of the name. -/
theorem claim2_literal_pattern_substring (pat name : String)
    (h : ∀ c ∈ pat.toList, isRegexLiteral c = true) :
    FieldPattern.matchesE ⟨pat⟩ name = some true ↔
      pat.toList <:+: name.toList := by
  have hm : FieldPattern.matchesE ⟨pat⟩ name =
      some (isMatch (lit pat.toList) name.toList) := by
    rw [FieldPattern.matchesE]
    rw [show (FieldPattern.mk pat).pat = pat from rfl]
    rw [globReplace_lit h, compile_lit h]
  rw [hm, Option.some_inj]
  exact isMatch_lit_iff

/-- **C2, witness.** The amended statement exercised on the pattern `foo`
and the name `xfoo`. -/
theorem claim2_witness :
    (∀ c ∈ "foo".toList, isRegexLiteral c = true) ∧
    (FieldPattern.matchesE ⟨"foo"⟩ "xfoo" = some true ↔
      "foo".toList <:+: "xfoo".toList) :=
  ⟨by decide, claim2_literal_pattern_substring "foo" "xfoo" (by decide)⟩

/-- **C3.** `PDP::allows` denies everything when the policy list is empty;
otherwise, whenever it returns a decision, that decision is `true` iff some
policy in the list both matches (applies to) the request's claims and allows
the request — so a request for which no policy applies is denied. -/
theorem claim3_pdp_default_deny (pdp : PDP) (req : Request) (b : Bool)
    (h : pdp.allowsE req = some b) :
    (pdp.policies = [] → b = false) ∧
    (b = true ↔ ∃ p, p ∈ pdp.policies ∧ p.matchesE req = some true ∧
      p.allowsE req = some true) := by
  rw [PDP.allowsE] at h
  by_cases he : pdp.policies.isEmpty = true
  · rw [if_pos he] at h
    have hb : b = false := (Option.some.inj h).symm
    subst hb
    have hnil : pdp.policies = [] := List.isEmpty_iff.mp he
    constructor
    · intro _; rfl
    · constructor
      · intro hb; exact Bool.noConfusion hb
      · rintro ⟨p, hp, _⟩
        rw [hnil] at hp
        exact absurd hp (List.not_mem_nil p)
  · rw [if_neg he] at h
    constructor
    · intro hnil
      rw [hnil] at he
      exact absurd rfl he
    · exact pdpFilterAny_spec h

/-- **C3, witness.** The empty PDP evaluated on the `{hero{...}}` request. -/
theorem claim3_witness :
    ((⟨[]⟩ : PDP).policies = [] → false = false) ∧
    (false = true ↔ ∃ p, p ∈ (⟨[]⟩ : PDP).policies ∧
      p.matchesE reqHero = some true ∧ p.allowsE reqHero = some true) :=
  claim3_pdp_default_deny ⟨[]⟩ reqHero false rfl

/-- **C4.** Whenever `Policy::allows` returns a decision: a `Deny` rule whose
pattern matches some operation of the document forces the decision to
`false`, regardless of any `Allow` rules matching the same operation; and an
operation matched by none of the rules is permitted by the per-operation
rule fold. -/
theorem claim4_deny_beats_allow (p : Policy) (req : Request) (b : Bool)
    (h : p.allowsE req = some b) :
    ((∃ od pat, Definition.operation od ∈ req.document.definitions ∧
        Rule.deny pat ∈ p.rules ∧ pat.matchesE od = some true) → b = false) ∧
    (∀ od, (∀ rule ∈ p.rules, rule.matchesE od = some false) →
      opAllowed p.rules od = some true) := by
  constructor
  · rintro ⟨od, pat, hod, hrule, hmatch⟩
    rw [Policy.allowsE] at h
    cases hm : allE (fun ma => ma.matchesE req) p.attributes with
    | none => rw [hm] at h; exact Option.noConfusion h
    | some v =>
      rw [hm] at h
      cases v with
      | false => exact (Option.some.inj h).symm
      | true =>
        apply allE_mem_false h hod
        intro x hx
        rw [defAllowed, opAllowed] at hx
        exact allE_mem_false hx hrule (fun y hy => by
          rw [ruleClosure_deny hmatch] at hy
          exact (Option.some.inj hy).symm)
  · intro od hall
    exact allE_all_true (fun rule hr => ruleClosure_nomatch (hall rule hr))

/-- **C4, witness.** The policy `[Allow(query:*), Deny(query:*)]` evaluated
on `{hero{...}}` denies. -/
theorem claim4_witness :
    Policy.allowsE allowDenyPolicy reqHero = some false ∧
    ((∃ od pat, Definition.operation od ∈ reqHero.document.definitions ∧
        Rule.deny pat ∈ allowDenyPolicy.rules ∧ pat.matchesE od = some true) →
      false = false) ∧
    (∀ od, (∀ rule ∈ allowDenyPolicy.rules, rule.matchesE od = some false) →
      opAllowed allowDenyPolicy.rules od = some true) := by
  have h : Policy.allowsE allowDenyPolicy reqHero = some false := by decide
  exact ⟨h, (claim4_deny_beats_allow _ _ _ h).1,
    (claim4_deny_beats_allow _ _ _ h).2⟩

/-- **C5 (code bug).** `MatchAttribute::matches` with `ClaimIncludes` calls
`v.as_str().unwrap()`, so a claim that is present but not a JSON string
panics (`none`) instead of returning `false`; the absent-key case does
return `false`, and `ClaimEquals` handles non-strings gracefully. -/
theorem claim5_claim_includes_panics :
    MatchAttribute.matchesE (.claimIncludes "roles" "admin") reqNumRoles = none ∧
    MatchAttribute.matchesE (.claimIncludes "roles" "admin") ⟨[], ⟨[]⟩⟩ = some false ∧
    MatchAttribute.matchesE (.claimEquals "roles" "admin") reqNumRoles = some false :=
  ⟨rfl, rfl, rfl⟩

/-- **C6, counterexample.** The claim says `FieldCounts` reach the telemetry
sink only after the PDP has permitted the request, and never for a denied
request.  In `do_post` the telemetry emission precedes the PDP check: with
an authenticated request, a configured backend and the empty (deny-all) PDP,
the trace emits telemetry and then rejects with 401. -/
theorem claim6_counterexample :
    doPostEvents true (some []) true ⟨[]⟩ (some (docHero, [("hero", 1)])) =
      [.bodyParsed, .telemetryEmit, .authorize (some false), .respond 401] ∧
    PostEvent.telemetryEmit ∈
      doPostEvents true (some []) true ⟨[]⟩ (some (docHero, [("hero", 1)])) ∧
    PDP.allowsE ⟨[]⟩ ⟨[], docHero⟩ = some false := by
  decide

/-- **C6 (amended).** Within `do_post`, telemetry is emitted directly after
a successful parse and *before* the authorization decision: for every
authenticated, successfully parsed POST the trace is `bodyParsed`, then the
telemetry emission (when a backend is configured), then the PDP outcome —
so the sink receives the counts whether the PDP allows, denies, or panics. -/
theorem claim6_telemetry_before_authorize (cs : Claims) (doc : Document)
    (counts : List (String × Nat)) (hasBackend : Bool) (pdp : PDP) :
    doPostEvents true (some cs) hasBackend pdp (some (doc, counts)) =
      .bodyParsed :: (if hasBackend then [PostEvent.telemetryEmit] else []) ++
        (match pdp.allowsE ⟨cs, doc⟩ with
         | none => [PostEvent.panicked]
         | some false => [PostEvent.authorize (some false), .respond 401]
         | some true => [PostEvent.authorize (some true), .forwardUpstream]) ∧
    PostEvent.telemetryEmit ∈
      doPostEvents true (some cs) true pdp (some (doc, counts)) := by
  constructor
  · rfl
  · cases h : pdp.allowsE ⟨cs, doc⟩ with
    | none => simp [doPostEvents, h]
    | some v => cases v <;> simp [doPostEvents, h]

/-- **C7 (code bug).** `Backend::write_points` ends in `.unwrap()` on the
time-series client's `Result`, so a client failure panics (`none`) instead
of being logged and swallowed; only a successful client write returns. -/
theorem claim7_write_points_panics :
    Backend.write_points (fun _ => .error "connection refused") [("hero", 3)] = none ∧
    Backend.write_points (fun _ => .ok ()) [("hero", 3)] = some () :=
  ⟨rfl, rfl⟩

/-- **C8, counterexample.** The claim says `FieldCounts` counts top-level
fields across all operations, including Mutation operations.  The code's
match skips `Mutation` (the `_ => warn!` arm): a document whose only
operation is a `createHero` mutation produces an empty map, not
`createHero ↦ 1`. -/
theorem claim8_counterexample :
    count_top_level_fields docMutHero = [] ∧
    getCount (count_top_level_fields docMutHero) "createHero" ≠ 1 := by
  decide

/-- **C8 (amended).** For every parsed document, `count_top_level_fields`
maps each top-level field name to its number of occurrences across the
`Query` and anonymous `SelectionSet` operations only; fields of `Mutation`
(and `Subscription`) operations and of non-operation definitions are not
counted. -/
theorem claim8_counts_query_ops_only (doc : Document) (name : String) :
    getCount (count_top_level_fields doc) name = specCount doc name := by
  rw [count_top_level_fields, specCount, getCount_foldl]
  simp [getCount]

/-- **C9, counterexample.** The claim says every permutation of a policy's
rules yields the same decision.  Order decides whether a panic hiding in an
uncompilable pattern is reached: `[Deny(query:a), Allow(query:()]` on `{a}`
short-circuits to `false` at the deny, while the permutation
`[Allow(query:(), Deny(query:a)]` panics compiling `(` first. -/
theorem claim9_counterexample :
    List.Perm [ruleDenyA, ruleAllowParen] [ruleAllowParen, ruleDenyA] ∧
    Policy.allowsE ⟨[], [ruleDenyA, ruleAllowParen]⟩ reqA = some false ∧
    Policy.allowsE ⟨[], [ruleAllowParen, ruleDenyA]⟩ reqA = none := by
  refine ⟨List.Perm.swap _ _ _, by decide, by decide⟩

/-- **C9 (amended).** Rule order cannot change a decision that both orders
actually deliver: whenever `Policy::allows` returns a decision for one rule
order and also returns a decision for a permutation of those rules, the two
decisions agree.  (Order can still decide whether a panic in an
uncompilable pattern is reached, as the counterexample shows.) -/
theorem claim9_perm_decisions_agree (attrs : List MatchAttribute)
    (rules rules' : List Rule) (req : Request) (b b' : Bool)
    (hperm : rules.Perm rules')
    (h1 : Policy.allowsE ⟨attrs, rules⟩ req = some b)
    (h2 : Policy.allowsE ⟨attrs, rules'⟩ req = some b') : b = b' := by
  simp only [Policy.allowsE] at h1 h2
  cases hm : allE (fun ma => ma.matchesE req) attrs with
  | none =>
    rw [hm] at h1
    exact Option.noConfusion h1
  | some v =>
    rw [hm] at h1 h2
    cases v with
    | false =>
      rw [← Option.some.inj h1, ← Option.some.inj h2]
    | true =>
      refine allE_agree h1 h2 ?_
      intro d hd x y hx hy
      cases d with
      | fragment =>
        rw [defAllowed] at hx hy
        rw [← Option.some.inj hx, ← Option.some.inj hy]
      | operation od =>
        rw [defAllowed] at hx hy
        exact opAllowed_perm_agree hperm hx hy

/-- **C9, witness.** Two panic-free orders of `[Deny(query:a),
Allow(query:b)]` on `{a}` both decide, and the decisions agree. -/
theorem claim9_witness :
    List.Perm [ruleDenyA, ruleAllowB] [ruleAllowB, ruleDenyA] ∧
    Policy.allowsE ⟨[], [ruleDenyA, ruleAllowB]⟩ reqA = some false ∧
    Policy.allowsE ⟨[], [ruleAllowB, ruleDenyA]⟩ reqA = some false ∧
    false = false := by
  have h1 : Policy.allowsE ⟨[], [ruleDenyA, ruleAllowB]⟩ reqA = some false := by
    decide
  have h2 : Policy.allowsE ⟨[], [ruleAllowB, ruleDenyA]⟩ reqA = some false := by
    decide
  exact ⟨List.Perm.swap _ _ _, h1, h2,
    claim9_perm_decisions_agree [] _ _ reqA false false (List.Perm.swap _ _ _) h1 h2⟩

/-- **C10.** `Pattern::parse` accepts every input — in particular `"("`
parses to `Query(FieldPattern("("))` — but `matches` is not total over the
patterns parse produces: that glob's text (with `*` replaced by `.*`) is not
a valid regular expression, so the per-call `Regex::new(...).unwrap` in
`FieldPattern::matches` panics (`none`) instead of returning a boolean, and
`Pattern::matches` panics on any operation carrying a field. -/
theorem claim10_parse_total_matches_partial :
    Pattern.parse "(" = .query ⟨"("⟩ ∧
    compile (globReplace "(".toList) = none ∧
    FieldPattern.matchesE ⟨"("⟩ "hero" = none ∧
    Pattern.matchesE (Pattern.parse "(") (.selectionSet [.field "hero"]) = none := by
  decide

end Arboric
